import Mathlib

/-!
Verification development for the rocsolver-bench repository: six standalone
benchmark programs (QR, symmetric eigendecomposition, SVD on CPU/GPU, batched
and strided-batched).  The definitions below are shallow embeddings of the
argument handling, buffer sizing, matrix generators, warm-up and measurement
loops, and statistics found in `src/src/bench_*.cpp`.  Machine floats are
modelled by an abstract value type `V` for generated matrix contents (the
generator only moves values from the seeded random stream into the buffer) and
by `ℚ`/`ℝ` for timing statistics; machine integers are modelled by `Int`/`Nat`.
-/

set_option maxRecDepth 4000

namespace RocsolverBench

/-! ## Last-write-wins buffer model

A host buffer is `Nat → Option V`: `none` marks an element `malloc` returned
uninitialized.  A generator is a list of `(address, value)` writes applied in
program order. -/

/-- Write value `v` at flat index `p`. -/
def writeBuf {V : Type} (buf : Nat → Option V) (p : Nat) (v : V) : Nat → Option V :=
  fun q => if q = p then some v else buf q

/-- Apply a list of writes, in order, to a buffer. -/
def applyWrites {V : Type} (ws : List (Nat × V)) (buf : Nat → Option V) : Nat → Option V :=
  ws.foldl (fun b w => writeBuf b w.1 w.2) buf

/-- The last value written at address `p` by a chronological list of writes
(later list entries win). -/
def lastVal {V : Type} : List (Nat × V) → Nat → Option V
  | [], _ => none
  | w :: ws, p =>
    match lastVal ws p with
    | some v => some v
    | none => if w.1 = p then some w.2 else none

/-! ## Argument handling (common to all six programs)

Every `main` reads `lda` then executes `if (lda < M) lda = M;` and, when the
`--stride` flag is absent, `strideA = lda * N;`; the input buffer element
count is `size_A = strideA * (size_t)batch_count`. -/

/-- `if (lda < M) lda = M;` -/
def clampLda (lda M : Int) : Int := if lda < M then M else lda

/-- `strideA` from the optional `--stride` flag: the flag value when present,
`lda * N` otherwise (with the already clamped `lda`). -/
def resolveStride (strideOpt : Option Int) (lda N : Int) : Int :=
  match strideOpt with
  | some s => s
  | none => lda * N

/-- `size_A = strideA * (size_t)batch_count` -/
def size_A (strideA batch_count : Int) : Int := strideA * batch_count

/-! ## Singular-vector mode mapping

`bench_openblas_sgesvdj_strided_batched.cpp` maps the `--left-svect` /
`--right-svect` strings to LAPACK job characters and derives `ldu`, `ldvt`,
`strideU`, `strideVT`, `size_U`, `size_VT`;
`bench_rocsolver_sgesvdj_strided_batched.cpp` maps them to `rocblas_svect`
values and derives `ldu`, `ldv`, `strideU`, `strideV`, `size_U`, `size_V`. -/

namespace CpuSvd

/-- jobu/jobvt selection from the option string (anything other than
`none`/`singular` selects `A`). -/
def jobOf (s : String) : Char :=
  if s = "none" then 'N' else if s = "singular" then 'S' else 'A'

/-- `ldu = (jobu == 'N') ? 1 : M;` -/
def ldu (jobu : Char) (M : Int) : Int := if jobu = 'N' then 1 else M

/-- `ldvt = (jobvt == 'N') ? 1 : N;` -/
def ldvt (jobvt : Char) (N : Int) : Int := if jobvt = 'N' then 1 else N

/-- `strideU = (jobu == 'N') ? 1 : ldu * ((jobu == 'A') ? M : min_mn);` -/
def strideU (jobu : Char) (M min_mn : Int) : Int :=
  if jobu = 'N' then 1 else ldu jobu M * (if jobu = 'A' then M else min_mn)

/-- `strideVT = (jobvt == 'N') ? 1 : ldvt * N;` -/
def strideVT (jobvt : Char) (N : Int) : Int :=
  if jobvt = 'N' then 1 else ldvt jobvt N * N

/-- `size_U = strideU * (size_t)batch_count;` -/
def size_U (jobu : Char) (M min_mn batch_count : Int) : Int :=
  strideU jobu M min_mn * batch_count

/-- `size_VT = strideVT * (size_t)batch_count;` -/
def size_VT (jobvt : Char) (N batch_count : Int) : Int :=
  strideVT jobvt N * batch_count

end CpuSvd

namespace GpuSvd

/-- `rocblas_svect` values used by the GPU SVD program. -/
inductive Svect where
  | svNone
  | svSingular
  | svAll
deriving DecidableEq

/-- Mapping of the option string to `rocblas_svect` (anything other than
`none`/`singular` selects `rocblas_svect_all`). -/
def svectOf (s : String) : Svect :=
  if s = "none" then .svNone else if s = "singular" then .svSingular else .svAll

/-- `ldu = (left_svect == rocblas_svect_none) ? 1 : M;` -/
def ldu (left : Svect) (M : Int) : Int := if left = .svNone then 1 else M

/-- `ldv = none ? 1 : singular ? min_mn : N;` -/
def ldv (right : Svect) (min_mn N : Int) : Int :=
  if right = .svNone then 1 else if right = .svSingular then min_mn else N

/-- `strideU = none ? 1 : singular ? ldu * min_mn : ldu * M;` -/
def strideU (left : Svect) (M min_mn : Int) : Int :=
  if left = .svNone then 1
  else if left = .svSingular then ldu left M * min_mn else ldu left M * M

/-- `strideV = none ? 1 : ldv * N;` -/
def strideV (right : Svect) (min_mn N : Int) : Int :=
  if right = .svNone then 1 else ldv right min_mn N * N

/-- `size_U = strideU * (size_t)batch_count;` -/
def size_U (left : Svect) (M min_mn batch_count : Int) : Int :=
  strideU left M min_mn * batch_count

/-- `size_V = strideV * (size_t)batch_count;` -/
def size_V (right : Svect) (min_mn N batch_count : Int) : Int :=
  strideV right min_mn N * batch_count

end GpuSvd

/-! ## Matrix generators

The generators fill a freshly `malloc`ed buffer from a seeded `std::mt19937`
pushed through `std::uniform_real_distribution`.  The engine-plus-distribution
pipeline is deterministic given the seed, so it is modelled as a stream
`draws : Nat → V`: `draws k` is the value returned by the `k`-th call of
`dis(gen)` after seeding.  Buffer contents are the application of the loops'
writes, in program order, to the all-uninitialized buffer. -/

/-- One `j`-loop iteration set of the general generators: row `i` of a batch
member based at `base`, the first draw of the row being draw number `c`. -/
def generalRowWrites {V : Type} (N lda base : Nat) (draws : Nat → V)
    (i c : Nat) : List (Nat × V) :=
  (List.range N).map fun j => (i + j * lda + base, draws (c + j))

/-- One `i`-loop iteration set of the general generators: the batch member
based at `base`, the first draw of the member being draw number `c0`. -/
def generalBatchWrites {V : Type} (M N lda base : Nat) (draws : Nat → V)
    (c0 : Nat) : List (Nat × V) :=
  (List.range M).flatMap fun i => generalRowWrites N lda base draws i (c0 + i * N)

/-- Writes of `create_matrices_for_sgesvdj_strided_batched` /
`create_example_matrices` (strided variants): loops `b`, `i`, `j` writing
`hA[i + j * lda + b * strideA] = dis(gen);`, one draw per element in loop
order, so the element `(b, i, j)` receives draw number `b*(M*N) + i*N + j`. -/
def generalWrites {V : Type} (M N lda strideA batch_count : Nat)
    (draws : Nat → V) : List (Nat × V) :=
  (List.range batch_count).flatMap fun b =>
    generalBatchWrites M N lda (b * strideA) draws (b * (M * N))

/-- The buffer produced by the general (non-symmetric) strided generators. -/
def createGeneral {V : Type} (M N lda strideA batch_count : Nat)
    (draws : Nat → V) : Nat → Option V :=
  applyWrites (generalWrites M N lda strideA batch_count draws) (fun _ => none)

/-- Inner `j`-loop of the symmetric generators (`create_matrices` in
`bench_openblas_ssyev.cpp`, `create_symmetric_matrices` in
`bench_rocsolver_ssyevj_strided_batched.cpp`): for each `j` in `js` draw one
value and write it to `hA[i + j * lda + base]` and `hA[j + i * lda + base]`.
`k` is the index of the first draw consumed by this loop plus `i`'s offset:
iteration `j` consumes draw `k + (j - i)`. -/
def symOffDiagWrites {V : Type} (lda base : Nat) (draws : Nat → V)
    (i k : Nat) (js : List Nat) : List (Nat × V) :=
  js.flatMap fun j =>
    [(i + j * lda + base, draws (k + (j - i))),
     (j + i * lda + base, draws (k + (j - i)))]

/-- Row loop of the symmetric generators, driven structurally by the number
`rows` of remaining rows (the source iterates `i` from `0` while `i < N`;
here `rows = N - i`, so the guard `i < N` becomes `rows > 0`).  Row `i` first
writes the diagonal element `hA[i + i * lda + base] = dis(gen) * 10.0;` and
then mirrors one draw into each off-diagonal pair `(i, j)`, `j` ranging over
`i+1 .. i+rows-1` (that is, `i+1 .. N-1`).  A row consumes `rows` draws. -/
def symRows {V : Type} (lda base : Nat) (draws : Nat → V) (scale : V → V) :
    Nat → Nat → Nat → List (Nat × V)
  | 0, _, _ => []
  | rows + 1, i, k =>
    ((i + i * lda + base, scale (draws k)) ::
      symOffDiagWrites lda base draws i k (List.range' (i + 1) rows)) ++
    symRows lda base draws scale rows (i + 1) (k + (rows + 1))

/-- Writes of the symmetric generators over the whole batch: batch `b` starts
at base address `b * strideA` having consumed `b * (N * (N + 1) / 2)` draws
(each batch member consumes `N + (N-1) + ... + 1` draws). -/
def symWrites {V : Type} (N lda strideA batch_count : Nat)
    (draws : Nat → V) (scale : V → V) : List (Nat × V) :=
  (List.range batch_count).flatMap fun b =>
    symRows lda (b * strideA) draws scale N 0 (b * (N * (N + 1) / 2))

/-- The buffer produced by the symmetric generators; `scale` is the
diagonal-dominance factor `(* 10.0f)` applied to diagonal draws. -/
def createSym {V : Type} (N lda strideA batch_count : Nat)
    (draws : Nat → V) (scale : V → V) : Nat → Option V :=
  applyWrites (symWrites N lda strideA batch_count draws scale) (fun _ => none)

/-- The flat addresses written by the general strided generators (the first
components of `generalWrites`, independent of the drawn values). -/
def generalAddrs (M N lda strideA batch_count : Nat) : List Nat :=
  (List.range batch_count).flatMap fun b =>
    (List.range M).flatMap fun i =>
      (List.range N).map fun j => i + j * lda + b * strideA

/-- The flat addresses written by the row loop of the symmetric generators. -/
def symAddrsRows (lda base : Nat) : Nat → Nat → List Nat
  | 0, _ => []
  | rows + 1, i =>
    ((i + i * lda + base) ::
      (List.range' (i + 1) rows).flatMap fun j =>
        [i + j * lda + base, j + i * lda + base]) ++
    symAddrsRows lda base rows (i + 1)

/-- The flat addresses written by the symmetric generators. -/
def symAddrs (N lda strideA batch_count : Nat) : List Nat :=
  (List.range batch_count).flatMap fun b => symAddrsRows lda (b * strideA) N 0

/-! ## Warm-up loop

All six programs run
`while (warmup_elapsed < warmup_time || warmup_count == 0) { call; warmup_count++; measure warmup_elapsed; }`
starting from `warmup_elapsed = 0` and `warmup_count = 0`.  The clock readings
(host `chrono` on CPU, hip events on GPU) are abstracted as a stream
`meas : Nat → Int`, `meas c` being the elapsed time observed after `c` calls;
`fuel` bounds the number of loop iterations modelled (the result is `none` if
the loop has not exited within `fuel` iterations). -/

/-- The warm-up loop; returns the final `(warmup_count, warmup_elapsed)`. -/
def warmupLoop (warmup_time : Int) (meas : Nat → Int) :
    Nat → Int → Nat → Option (Nat × Int)
  | 0, _, _ => none
  | fuel + 1, elapsed, count =>
    if elapsed < warmup_time ∨ count = 0 then
      warmupLoop warmup_time meas fuel (meas (count + 1)) (count + 1)
    else
      some (count, elapsed)

/-! ## Timed measurement loop

`for (int iter = 0; iter < iterations; ++iter)` runs the batched library call
once, measures one elapsed time, and does `timings.push_back(elapsed_time)`.
The CPU SVD program additionally loops over the batch and prints
`LAPACKE_sgesvd failed for matrix %d with error %d` for each member whose
`info` is non-zero; the CPU eigensolver program has this `printf` commented
out in its timed loop.  Per-call statuses are abstracted as
`info : Nat → Nat → Int` (iteration, batch index ↦ status) and per-iteration
elapsed times as `elapsed : Nat → ℚ`. -/

/-- Result of a measurement loop: the timing samples, in order, and the
console error reports `(iteration, batch index, status)` emitted inside it. -/
structure LoopOut where
  timings : List ℚ
  log : List (Nat × Nat × Int)
deriving DecidableEq

/-- Error reports of one iteration of the CPU SVD timed loop:
`if (info != 0) printf(... (int)b, (int)info)` for each batch member. -/
def svdIterLog (batch_count : Nat) (info : Nat → Int) : List (Nat × Int) :=
  (List.range batch_count).filterMap fun b =>
    if info b = 0 then none else some (b, info b)

/-- Timed loop of `bench_openblas_sgesvdj_strided_batched.cpp` (lines
231-262): always runs exactly `iterations` repetitions, records one sample
per repetition, and logs every non-zero per-matrix status. -/
def timedLoopSvd (iterations batch_count : Nat) (info : Nat → Nat → Int)
    (elapsed : Nat → ℚ) : LoopOut :=
  ⟨(List.range iterations).map elapsed,
   (List.range iterations).flatMap fun it =>
     (svdIterLog batch_count (info it)).map fun e => (it, e.1, e.2)⟩

/-- Timed loop of `bench_openblas_ssyev.cpp` (lines 192-229): identical
shape, but the failure `printf` is commented out, so nothing is logged. -/
def timedLoopSyev (iterations _batch_count : Nat) (_info : Nat → Nat → Int)
    (elapsed : Nat → ℚ) : LoopOut :=
  ⟨(List.range iterations).map elapsed, []⟩

/-- The console reports `(iteration, batch index, status)` accumulated by the
first `n` executions of a CPU batch loop that prints every non-zero status. -/
def svdLogUpTo (batch_count : Nat) (info : Nat → Nat → Int) (n : Nat) :
    List (Nat × Nat × Int) :=
  (List.range n).flatMap fun it =>
    (svdIterLog batch_count (info it)).map fun e => (it, e.1, e.2)

/-- Warm-up loop of the CPU programs with its console reporting made explicit:
each body execution runs the batch loop, printing
`... failed for matrix %d with error %d` for every member with a non-zero
status (this `printf` is active in the warm-up phase of both CPU programs:
lines 216-218 of `bench_openblas_sgesvdj_strided_batched.cpp` and lines
173-175 of `bench_openblas_ssyev.cpp`), then increments the count and
measures the elapsed time.  The control flow is exactly that of
`warmupLoop`; the extra accumulator collects the reports in order. -/
def warmupLoopLog (warmup_time : Int) (meas : Nat → Int) (batch_count : Nat)
    (info : Nat → Nat → Int) :
    Nat → Int → Nat → List (Nat × Nat × Int) →
      Option (Nat × Int × List (Nat × Nat × Int))
  | 0, _, _, _ => none
  | fuel + 1, elapsed, count, log =>
    if elapsed < warmup_time ∨ count = 0 then
      warmupLoopLog warmup_time meas batch_count info fuel (meas (count + 1))
        (count + 1)
        (log ++ (svdIterLog batch_count (info count)).map fun e => (count, e.1, e.2))
    else
      some (count, elapsed, log)

/-! ## Statistics

All six programs compute
`avg_time = (Σ t) / timings.size()` and
`std_dev = sqrt((Σ (t - avg_time)²) / timings.size())`
with no guard on `timings.size()`. -/

/-- `for (float t : timings) avg_time += t; avg_time /= timings.size();` -/
def avg_time (timings : List ℚ) : ℚ :=
  (timings.foldl (· + ·) 0) / (timings.length : ℚ)

/-- The sum of squared deviations accumulated by
`for (float t : timings) std_dev += (t - avg_time) * (t - avg_time);`. -/
def sqDevSum (timings : List ℚ) (mean : ℚ) : ℚ :=
  timings.foldl (fun acc t => acc + (t - mean) * (t - mean)) 0

/-- The quantity inside the square root: sum of squared deviations divided by
the sample count (population convention, not `size() - 1`). -/
def varOverN (timings : List ℚ) : ℚ :=
  sqDevSum timings (avg_time timings) / (timings.length : ℚ)

/-- `std_dev = sqrt(std_dev / timings.size());` (the square root lives in `ℝ`,
hence this definition is not executable; its radicand `varOverN` is). -/
noncomputable def std_dev (timings : List ℚ) : ℝ :=
  Real.sqrt ((varOverN timings : ℚ) : ℝ)

/-! ## End-to-end model of the symmetric eigensolver benchmark

`bench_openblas_ssyev.cpp`: parse arguments (size `N`, `lda` default 10,
optional stride, batch count, seed, iterations, warm-up time), clamp `lda`,
resolve the stride, generate the matrices, warm up, run the timed loop, and
print the report.  The report fields below are the printed values the claims
refer to. -/

/-- The printed report of `bench_openblas_ssyev.cpp` (the standard deviation
is printed as the square root of `varianceOverN`). -/
structure SsyevReport where
  matrixSize : String
  batchCount : String
  warmupCount : Nat
  timings : List ℚ
  avg : ℚ
  varianceOverN : ℚ
deriving DecidableEq

/-- A run of `bench_openblas_ssyev.cpp`: `none` when the warm-up loop does not
exit within `wfuel` iterations.  `wmeas` abstracts the warm-up clock and
`elapsed` the per-iteration timed-loop clock. -/
def runSsyev (N lda0 : Int) (strideOpt : Option Int) (batch_count : Int)
    (iterations : Nat) (warmup_time : Int) (wfuel : Nat) (wmeas : Nat → Int)
    (elapsed : Nat → ℚ) : Option SsyevReport :=
  let lda := clampLda lda0 N
  let _strideA := resolveStride strideOpt lda N
  match warmupLoop warmup_time wmeas wfuel 0 0 with
  | none => none
  | some wc =>
    let timings := (List.range iterations).map elapsed
    some ⟨toString N ++ " x " ++ toString N, toString batch_count, wc.1,
          timings, avg_time timings,
          sqDevSum timings (avg_time timings) / (timings.length : ℚ)⟩

/-! ## Lemmas about the write model -/

theorem foldl_writeBuf_eq {V : Type} (ws : List (Nat × V)) :
    ∀ (buf : Nat → Option V) (p : Nat),
      ws.foldl (fun b w => writeBuf b w.1 w.2) buf p
        = match lastVal ws p with
          | some v => some v
          | none => buf p := by
  induction ws with
  | nil => intro buf p; rfl
  | cons w ws ih =>
    intro buf p
    show ws.foldl (fun b w => writeBuf b w.1 w.2) (writeBuf buf w.1 w.2) p = _
    rw [ih]
    cases h : lastVal ws p with
    | some v => simp [lastVal, h]
    | none =>
      by_cases hw : w.1 = p
      · simp [lastVal, h, hw, writeBuf]
      · have hw2 : ¬ p = w.1 := fun hc => hw hc.symm
        simp [lastVal, h, hw, writeBuf, hw2]

theorem applyWrites_eq_lastVal {V : Type} (ws : List (Nat × V)) (p : Nat) :
    applyWrites ws (fun _ => none) p = lastVal ws p := by
  rw [applyWrites, foldl_writeBuf_eq]
  cases lastVal ws p <;> rfl

theorem lastVal_append {V : Type} (ws₁ ws₂ : List (Nat × V)) (p : Nat) :
    lastVal (ws₁ ++ ws₂) p
      = match lastVal ws₂ p with
        | some v => some v
        | none => lastVal ws₁ p := by
  induction ws₁ with
  | nil =>
    rw [List.nil_append]
    cases h : lastVal ws₂ p <;> simp [lastVal, h]
  | cons w ws₁ ih =>
    rw [List.cons_append]
    have lhs_eq : lastVal (w :: (ws₁ ++ ws₂)) p
        = match lastVal (ws₁ ++ ws₂) p with
          | some v => some v
          | none => if w.1 = p then some w.2 else none := rfl
    have rhs_eq : lastVal (w :: ws₁) p
        = match lastVal ws₁ p with
          | some v => some v
          | none => if w.1 = p then some w.2 else none := rfl
    rw [lhs_eq, ih]
    cases h2 : lastVal ws₂ p <;> cases h1 : lastVal ws₁ p <;>
      simp [rhs_eq, h1, h2]

theorem lastVal_eq_none {V : Type} {ws : List (Nat × V)} {p : Nat}
    (h : ∀ w ∈ ws, w.1 ≠ p) : lastVal ws p = none := by
  induction ws with
  | nil => rfl
  | cons w ws ih =>
    have h1 : w.1 ≠ p := h w (List.mem_cons_self w ws)
    have h2 : lastVal ws p = none := ih fun x hx => h x (List.mem_cons_of_mem w hx)
    simp [lastVal, h2, h1]

theorem lastVal_flatMap_none {V α : Type} {l : List α} {f : α → List (Nat × V)} {p : Nat}
    (h : ∀ a ∈ l, lastVal (f a) p = none) : lastVal (l.flatMap f) p = none := by
  induction l with
  | nil => rfl
  | cons a l ih =>
    rw [List.flatMap_cons, lastVal_append,
        ih fun x hx => h x (List.mem_cons_of_mem a hx),
        h a (List.mem_cons_self a l)]

theorem lastVal_flatMap_eq {V α : Type} {l : List α} {f : α → List (Nat × V)} {t : α} {p : Nat}
    (ht : t ∈ l) (hnd : l.Nodup)
    (hothers : ∀ a ∈ l, a ≠ t → lastVal (f a) p = none) :
    lastVal (l.flatMap f) p = lastVal (f t) p := by
  induction l with
  | nil => cases ht
  | cons a l ih =>
    rw [List.flatMap_cons, lastVal_append]
    rcases List.mem_cons.mp ht with rfl | htl
    · have hnot : t ∉ l := (List.nodup_cons.mp hnd).1
      have : lastVal (l.flatMap f) p = none := by
        refine lastVal_flatMap_none fun x hx => ?_
        exact hothers x (List.mem_cons_of_mem t hx) (fun hc => hnot (hc ▸ hx))
      rw [this]
    · have hne : a ≠ t := by
        rintro rfl; exact (List.nodup_cons.mp hnd).1 htl
      have ha : lastVal (f a) p = none := hothers a (List.mem_cons_self a l) hne
      rw [ih htl (List.nodup_cons.mp hnd).2
            (fun x hx hxt => hothers x (List.mem_cons_of_mem a hx) hxt)]
      cases h : lastVal (f t) p with
      | some v => rfl
      | none => simpa using ha

theorem lastVal_map_addr {V : Type} (g : Nat → Nat) (v : Nat → V) {js : List Nat} {j0 : Nat}
    (hmem : j0 ∈ js) (hnd : js.Nodup)
    (hinj : ∀ j ∈ js, g j = g j0 → j = j0) :
    lastVal (js.map fun j => (g j, v j)) (g j0) = some (v j0) := by
  induction js with
  | nil => cases hmem
  | cons a js ih =>
    rcases List.mem_cons.mp hmem with rfl | hjl
    · have hnot : j0 ∉ js := (List.nodup_cons.mp hnd).1
      have hnone : lastVal (js.map fun j => (g j, v j)) (g j0) = none := by
        refine lastVal_eq_none fun w hw => ?_
        rcases List.mem_map.mp hw with ⟨j, hj, rfl⟩
        intro hc
        exact hnot ((hinj j (List.mem_cons_of_mem j0 hj) hc) ▸ hj)
      simp [lastVal, hnone]
    · have hne : a ≠ j0 := by
        rintro rfl; exact (List.nodup_cons.mp hnd).1 hjl
      have := ih hjl (List.nodup_cons.mp hnd).2
        (fun j hj => hinj j (List.mem_cons_of_mem a hj))
      simp [lastVal, this]

/-! ## Address arithmetic -/

/-- Uniqueness of the base-`d` decomposition of a flat address. -/
theorem addr_decomp {d a b c e : Nat} (ha : a < d) (hc : c < d)
    (h : a + b * d = c + e * d) : a = c ∧ b = e := by
  have h1 : (a + b * d) % d = a := by
    rw [Nat.add_mul_mod_self_right]; exact Nat.mod_eq_of_lt ha
  have h2 : (c + e * d) % d = c := by
    rw [Nat.add_mul_mod_self_right]; exact Nat.mod_eq_of_lt hc
  have hac : a = c := by rw [← h1, ← h2, h]
  refine ⟨hac, ?_⟩
  have hbe : b * d = e * d := by omega
  exact Nat.eq_of_mul_eq_mul_right (by omega) hbe

/-- A column-major in-matrix offset is below `lda * N`. -/
theorem off_lt_of_lt {i j lda N : Nat} (hi : i < lda) (hj : j < N) :
    i + j * lda < lda * N := by
  have h1 : i + j * lda < (j + 1) * lda := by
    have : (j + 1) * lda = j * lda + lda := by ring
    omega
  have h2 : (j + 1) * lda ≤ N * lda := Nat.mul_le_mul_right lda hj
  have h3 : N * lda = lda * N := Nat.mul_comm N lda
  omega

/-! ## Address characterization of the generators -/

theorem mem_generalRowWrites {V : Type} {N lda base : Nat} {draws : Nat → V}
    {i c : Nat} {w : Nat × V} (hw : w ∈ generalRowWrites N lda base draws i c) :
    ∃ j, j < N ∧ w.1 = i + j * lda + base := by
  simp only [generalRowWrites, List.mem_map, List.mem_range] at hw
  obtain ⟨j, hj, rfl⟩ := hw
  exact ⟨j, hj, rfl⟩

theorem mem_generalBatchWrites {V : Type} {M N lda base : Nat} {draws : Nat → V}
    {c0 : Nat} {w : Nat × V} (hw : w ∈ generalBatchWrites M N lda base draws c0) :
    ∃ i j, i < M ∧ j < N ∧ w.1 = i + j * lda + base := by
  simp only [generalBatchWrites, List.mem_flatMap, List.mem_range] at hw
  obtain ⟨i, hi, hmem⟩ := hw
  obtain ⟨j, hj, h⟩ := mem_generalRowWrites hmem
  exact ⟨i, j, hi, hj, h⟩

theorem mem_generalWrites {V : Type} {M N lda str bc : Nat} {draws : Nat → V}
    {w : Nat × V} (hw : w ∈ generalWrites M N lda str bc draws) :
    ∃ b i j, b < bc ∧ i < M ∧ j < N ∧ w.1 = i + j * lda + b * str := by
  simp only [generalWrites, List.mem_flatMap, List.mem_range] at hw
  obtain ⟨b, hb, hmem⟩ := hw
  obtain ⟨i, j, hi, hj, h⟩ := mem_generalBatchWrites hmem
  exact ⟨b, i, j, hb, hi, hj, h⟩

theorem mem_symOffDiagWrites {V : Type} {lda base : Nat} {draws : Nat → V}
    {i k : Nat} {js : List Nat} {w : Nat × V}
    (hw : w ∈ symOffDiagWrites lda base draws i k js) :
    ∃ j ∈ js, w.1 = i + j * lda + base ∨ w.1 = j + i * lda + base := by
  simp only [symOffDiagWrites, List.mem_flatMap, List.mem_cons,
    List.mem_singleton, List.not_mem_nil, or_false] at hw
  obtain ⟨j, hj, hcase⟩ := hw
  rcases hcase with h | h
  · exact ⟨j, hj, Or.inl (by rw [h])⟩
  · exact ⟨j, hj, Or.inr (by rw [h])⟩

theorem mem_symRows {V : Type} {lda base : Nat} {draws : Nat → V} {scale : V → V} :
    ∀ {rows i k : Nat} {w : Nat × V}, w ∈ symRows lda base draws scale rows i k →
      ∃ x y, i ≤ x ∧ x ≤ y ∧ y < i + rows ∧
        (w.1 = x + y * lda + base ∨ w.1 = y + x * lda + base) := by
  intro rows
  induction rows with
  | zero => intro i k w hw; cases hw
  | succ rows ih =>
    intro i k w hw
    rw [symRows] at hw
    rcases List.mem_append.mp hw with hcur | hrest
    · rcases List.mem_cons.mp hcur with rfl | hoff
      · exact ⟨i, i, le_refl i, le_refl i, by omega, Or.inl rfl⟩
      · obtain ⟨j, hj, hcase⟩ := mem_symOffDiagWrites hoff
        have hjb := List.mem_range'_1.mp hj
        exact ⟨i, j, le_refl i, by omega, by omega, hcase⟩
    · obtain ⟨x, y, hx, hxy, hy, hcase⟩ := ih hrest
      exact ⟨x, y, by omega, hxy, by omega, hcase⟩

theorem generalWrites_fst {V : Type} {M N lda str bc : Nat} {draws : Nat → V}
    {w : Nat × V} (hw : w ∈ generalWrites M N lda str bc draws) :
    w.1 ∈ generalAddrs M N lda str bc := by
  simp only [generalWrites, generalBatchWrites, generalRowWrites,
    List.mem_flatMap, List.mem_map, List.mem_range] at hw
  obtain ⟨b, hb, i, hi, j, hj, rfl⟩ := hw
  simp only [generalAddrs, List.mem_flatMap, List.mem_map, List.mem_range]
  exact ⟨b, hb, i, hi, j, hj, rfl⟩

theorem symRows_fst {V : Type} {lda base : Nat} {draws : Nat → V} {scale : V → V} :
    ∀ {rows i k : Nat} {w : Nat × V}, w ∈ symRows lda base draws scale rows i k →
      w.1 ∈ symAddrsRows lda base rows i := by
  intro rows
  induction rows with
  | zero => intro i k w hw; cases hw
  | succ rows ih =>
    intro i k w hw
    rw [symRows] at hw
    rw [symAddrsRows]
    rcases List.mem_append.mp hw with hcur | hrest
    · refine List.mem_append.mpr (Or.inl ?_)
      rcases List.mem_cons.mp hcur with rfl | hoff
      · exact List.mem_cons_self _ _
      · refine List.mem_cons_of_mem _ ?_
        obtain ⟨j, hj, hcase⟩ := mem_symOffDiagWrites hoff
        simp only [List.mem_flatMap, List.mem_cons, List.mem_singleton,
          List.not_mem_nil, or_false]
        exact ⟨j, hj, hcase⟩
    · exact List.mem_append.mpr (Or.inr (ih hrest))

theorem symWrites_fst {V : Type} {N lda str bc : Nat} {draws : Nat → V}
    {scale : V → V} {w : Nat × V} (hw : w ∈ symWrites N lda str bc draws scale) :
    w.1 ∈ symAddrs N lda str bc := by
  simp only [symWrites, List.mem_flatMap, List.mem_range] at hw
  obtain ⟨b, hb, hmem⟩ := hw
  simp only [symAddrs, List.mem_flatMap, List.mem_range]
  exact ⟨b, hb, symRows_fst hmem⟩

/-! ## Warm-up loop invariant -/

theorem warmupLoop_post {warmup_time : Int} {meas : Nat → Int} :
    ∀ {fuel : Nat} {e : Int} {c cf : Nat} {ef : Int},
      warmupLoop warmup_time meas fuel e c = some (cf, ef) →
      warmup_time ≤ ef ∧ cf ≠ 0 := by
  intro fuel
  induction fuel with
  | zero => intro e c cf ef h; cases h
  | succ fuel ih =>
    intro e c cf ef h
    rw [warmupLoop] at h
    by_cases hcond : e < warmup_time ∨ c = 0
    · rw [if_pos hcond] at h
      exact ih h
    · rw [if_neg hcond] at h
      have h1 : c = cf := congrArg Prod.fst (Option.some.inj h)
      have h2 : e = ef := congrArg Prod.snd (Option.some.inj h)
      push_neg at hcond
      omega

/-! ## Claim theorems -/

/-- C1: after argument handling `lda ≥ M` (the user value is clamped up to
`M`); when `--stride` is absent, `strideA` is exactly `lda * N` (hence
`strideA ≥ lda * N` for defaulted strides); and `size_A = strideA *
batch_count`. -/
theorem c1_argument_invariants (M N lda0 batch_count : Int)
    (strideOpt : Option Int) :
    M ≤ clampLda lda0 M ∧
    (strideOpt = none →
      resolveStride strideOpt (clampLda lda0 M) N = clampLda lda0 M * N) ∧
    size_A (resolveStride strideOpt (clampLda lda0 M) N) batch_count
      = resolveStride strideOpt (clampLda lda0 M) N * batch_count := by
  refine ⟨?_, ?_, rfl⟩
  · unfold clampLda; split <;> omega
  · rintro rfl; rfl

theorem c1_argument_invariants_witness :
    (none : Option Int) = none ∧
    ((3 : Int) ≤ clampLda 2 3 ∧
      resolveStride none (clampLda 2 3) 4 = clampLda 2 3 * 4 ∧
      size_A (resolveStride none (clampLda 2 3) 4) 5
        = resolveStride none (clampLda 2 3) 4 * 5) := by
  have h := c1_argument_invariants 3 4 2 5 none
  exact ⟨rfl, h.1, h.2.1 rfl, h.2.2⟩

/-- C2: in both SVD programs, vector mode `none` forces the leading dimension
(`ldu`, `ldvt`/`ldv`) to `1` and the vector buffer element count (`size_U`,
`size_VT`/`size_V`) to `batch_count`, and mode `all` gives the full leading
dimension `M` (for `U`) or `N` (for `VT`/`V`). -/
theorem c2_svect_mode_mapping (M N min_mn batch_count : Int) :
    CpuSvd.ldu (CpuSvd.jobOf "none") M = 1 ∧
    CpuSvd.size_U (CpuSvd.jobOf "none") M min_mn batch_count = batch_count ∧
    CpuSvd.ldvt (CpuSvd.jobOf "none") N = 1 ∧
    CpuSvd.size_VT (CpuSvd.jobOf "none") N batch_count = batch_count ∧
    CpuSvd.ldu (CpuSvd.jobOf "all") M = M ∧
    CpuSvd.ldvt (CpuSvd.jobOf "all") N = N ∧
    GpuSvd.ldu (GpuSvd.svectOf "none") M = 1 ∧
    GpuSvd.size_U (GpuSvd.svectOf "none") M min_mn batch_count = batch_count ∧
    GpuSvd.ldv (GpuSvd.svectOf "none") min_mn N = 1 ∧
    GpuSvd.size_V (GpuSvd.svectOf "none") min_mn N batch_count = batch_count ∧
    GpuSvd.ldu (GpuSvd.svectOf "all") M = M ∧
    GpuSvd.ldv (GpuSvd.svectOf "all") min_mn N = N := by
  have hn : CpuSvd.jobOf "none" = 'N' := by decide
  have ha : CpuSvd.jobOf "all" = 'A' := by decide
  have gn : GpuSvd.svectOf "none" = GpuSvd.Svect.svNone := by decide
  have ga : GpuSvd.svectOf "all" = GpuSvd.Svect.svAll := by decide
  rw [hn, ha, gn, ga]
  refine ⟨rfl, ?_, rfl, ?_, ?_, ?_, rfl, ?_, rfl, ?_, ?_, ?_⟩ <;>
    simp [CpuSvd.ldu, CpuSvd.ldvt, CpuSvd.strideU, CpuSvd.strideVT,
      CpuSvd.size_U, CpuSvd.size_VT, GpuSvd.ldu, GpuSvd.ldv,
      GpuSvd.strideU, GpuSvd.strideV, GpuSvd.size_U, GpuSvd.size_V]

/-- C5: the warm-up loop performs at least one repetition regardless of the
configured duration (including `warmup_time = 0`), and when it exits, the
final elapsed measurement is at least the configured minimum. -/
theorem c5_warmup_floor (warmup_time : Int) (meas : Nat → Int) (fuel : Nat)
    (count : Nat) (elapsedFinal : Int)
    (h : warmupLoop warmup_time meas fuel 0 0 = some (count, elapsedFinal)) :
    1 ≤ count ∧ warmup_time ≤ elapsedFinal := by
  have hpost := warmupLoop_post h
  omega

theorem c5_warmup_floor_witness :
    warmupLoop 0 (fun k => (k : Int)) 2 0 0 = some (1, 1) ∧
    (1 ≤ 1 ∧ (0 : Int) ≤ 1) := by
  refine ⟨by decide, ?_⟩
  exact c5_warmup_floor 0 (fun k => (k : Int)) 2 1 1 (by decide)

/-- C6: the statistics are the arithmetic mean and the population standard
deviation (division by the sample count, not count minus one): for samples
`[5,5,5]` the mean is `5` and the deviation is `0`, for `[1,2,3]` the mean is
`2` and the deviation is `sqrt (2/3)`. -/
theorem c6_statistics :
    avg_time [5, 5, 5] = 5 ∧ std_dev [5, 5, 5] = 0 ∧
    avg_time [1, 2, 3] = 2 ∧ std_dev [1, 2, 3] = Real.sqrt ((2 : ℝ) / 3) := by
  have h5 : avg_time [5, 5, 5] = 5 := by
    norm_num [avg_time, List.foldl]
  have h1 : avg_time [1, 2, 3] = 2 := by
    norm_num [avg_time, List.foldl]
  refine ⟨h5, ?_, h1, ?_⟩
  · have hv : varOverN [5, 5, 5] = 0 := by
      norm_num [varOverN, sqDevSum, h5, List.foldl]
    rw [std_dev, hv]
    simp
  · have hv : varOverN [1, 2, 3] = 2 / 3 := by
      norm_num [varOverN, sqDevSum, h1, List.foldl]
    rw [std_dev, hv]
    norm_num

/-- C8: with iteration count `0` the timing sample set is empty and both the
mean and the variance inside the standard deviation are computed with the
sample count `0` as divisor, without any guard. -/
theorem c8_empty_division (batch_count : Nat) (info : Nat → Nat → Int)
    (elapsed : Nat → ℚ) :
    (timedLoopSvd 0 batch_count info elapsed).timings = [] ∧
    avg_time (timedLoopSvd 0 batch_count info elapsed).timings
      = (([] : List ℚ).foldl (· + ·) 0) / 0 ∧
    varOverN (timedLoopSvd 0 batch_count info elapsed).timings
      = sqDevSum [] (avg_time []) / 0 := by
  have h0 : (timedLoopSvd 0 batch_count info elapsed).timings = [] := rfl
  rw [h0]
  refine ⟨rfl, ?_, ?_⟩
  · simp [avg_time]
  · simp [varOverN]

/-! ## The status reports of the CPU loops -/

theorem mem_svdLogUpTo {batch_count : Nat} {info : Nat → Nat → Int}
    {n it b : Nat} {c : Int} :
    (it, b, c) ∈ svdLogUpTo batch_count info n
      ↔ (it < n ∧ b < batch_count ∧ info it b = c ∧ c ≠ 0) := by
  simp only [svdLogUpTo, svdIterLog, List.mem_flatMap, List.mem_map,
    List.mem_filterMap, List.mem_range]
  constructor
  · rintro ⟨it2, hit2, ⟨b2, c2⟩, ⟨b3, hb3, hif⟩, heq⟩
    by_cases h0 : info it2 b3 = 0
    · rw [if_pos h0] at hif; cases hif
    · rw [if_neg h0] at hif
      obtain ⟨rfl, rfl⟩ := Prod.mk.injEq .. ▸ Option.some.inj hif
      obtain ⟨rfl, rfl, rfl⟩ := Prod.mk.injEq .. ▸ heq
      exact ⟨hit2, hb3, rfl, h0⟩
  · rintro ⟨hit, hb, rfl, hc⟩
    refine ⟨it, hit, (b, info it b), ⟨b, hb, ?_⟩, rfl⟩
    rw [if_neg hc]

theorem svdLogUpTo_succ (batch_count : Nat) (info : Nat → Nat → Int) (n : Nat) :
    svdLogUpTo batch_count info (n + 1)
      = svdLogUpTo batch_count info n
          ++ (svdIterLog batch_count (info n)).map fun e => (n, e.1, e.2) := by
  rw [svdLogUpTo, svdLogUpTo, List.range_succ, List.flatMap_append]
  simp

/-- Running the warm-up loop with reporting gives the same count and final
elapsed time as the report-free model (statuses never change the control
flow), and its accumulated log is the reports of all executed iterations. -/
theorem warmupLoopLog_run {warmup_time : Int} {meas : Nat → Int}
    {batch_count : Nat} {info : Nat → Nat → Int} :
    ∀ {fuel : Nat} {e : Int} {c cf : Nat} {ef : Int}
      {logf : List (Nat × Nat × Int)},
      warmupLoopLog warmup_time meas batch_count info fuel e c
          (svdLogUpTo batch_count info c) = some (cf, ef, logf) →
      warmupLoop warmup_time meas fuel e c = some (cf, ef) ∧
      logf = svdLogUpTo batch_count info cf := by
  intro fuel
  induction fuel with
  | zero => intro e c cf ef logf h; cases h
  | succ fuel ih =>
    intro e c cf ef logf h
    rw [warmupLoopLog] at h
    rw [warmupLoop]
    by_cases hcond : e < warmup_time ∨ c = 0
    · rw [if_pos hcond] at h ⊢
      rw [← svdLogUpTo_succ] at h
      exact ih h
    · rw [if_neg hcond] at h ⊢
      simp only [Option.some.injEq, Prod.mk.injEq] at h
      obtain ⟨rfl, rfl, rfl⟩ := h
      exact ⟨rfl, rfl⟩

/-- C7: the timed loops always complete exactly the configured number of
repetitions and record one timing sample per repetition regardless of the
per-call statuses; the CPU SVD timed loop reports exactly the non-zero
per-matrix statuses with their batch index and code, while the CPU
eigensolver timed loop reports nothing (its `printf` is commented out); and
inside the warm-up loops of both CPU programs every non-zero status is
likewise reported with its batch index and code, without ever changing the
loop's control flow (same count and elapsed time as the report-free model). -/
theorem c7_status_reporting (iterations batch_count : Nat)
    (info : Nat → Nat → Int) (elapsed : Nat → ℚ) (warmup_time : Int)
    (meas : Nat → Int) (fuel it2 b2 : Nat) (c2 : Int) :
    (timedLoopSvd iterations batch_count info elapsed).timings.length
      = iterations ∧
    (∀ it b c, (it, b, c) ∈ (timedLoopSvd iterations batch_count info elapsed).log
      ↔ (it < iterations ∧ b < batch_count ∧ info it b = c ∧ c ≠ 0)) ∧
    (timedLoopSyev iterations batch_count info elapsed).timings.length
      = iterations ∧
    (timedLoopSyev iterations batch_count info elapsed).log = [] ∧
    (∀ wcount welapsed wlog,
      warmupLoopLog warmup_time meas batch_count info fuel 0 0 []
          = some (wcount, welapsed, wlog) →
      warmupLoop warmup_time meas fuel 0 0 = some (wcount, welapsed) ∧
      ((it2, b2, c2) ∈ wlog
        ↔ (it2 < wcount ∧ b2 < batch_count ∧ info it2 b2 = c2 ∧ c2 ≠ 0))) := by
  refine ⟨by simp [timedLoopSvd], ?_, by simp [timedLoopSyev], rfl, ?_⟩
  · intro it b c
    exact mem_svdLogUpTo
  · intro wcount welapsed wlog hw
    have hw2 : warmupLoopLog warmup_time meas batch_count info fuel 0 0
        (svdLogUpTo batch_count info 0) = some (wcount, welapsed, wlog) := hw
    obtain ⟨h1, h2⟩ := warmupLoopLog_run hw2
    refine ⟨h1, ?_⟩
    rw [h2]
    exact mem_svdLogUpTo

theorem c7_status_reporting_witness :
    warmupLoopLog 0 (fun k => (k : Int)) 2 (fun _ b => if b = 1 then 3 else 0)
        2 0 0 [] = some (1, 1, [(0, 1, 3)]) ∧
    warmupLoop 0 (fun k => (k : Int)) 2 0 0 = some (1, 1) ∧
    (((0 : Nat), (1 : Nat), (3 : Int)) ∈ [((0 : Nat), (1 : Nat), (3 : Int))]
      ↔ (0 < 1 ∧ 1 < 2 ∧
          (fun _ b => if b = 1 then (3 : Int) else 0) 0 1 = 3 ∧
          (3 : Int) ≠ 0)) := by
  have h := (c7_status_reporting 2 2 (fun _ b => if b = 1 then 3 else 0)
    (fun _ => (0 : ℚ)) 0 (fun k => (k : Int)) 2 0 1 3).2.2.2.2
    1 1 [(0, 1, 3)] (by decide)
  exact ⟨by decide, h.1, h.2⟩

/-! ## Localization of the general generator -/

theorem lastVal_generalBatch_none {V : Type} {M N lda str : Nat} {d : Nat → V}
    {c0 b' b off : Nat} (hM : M ≤ lda) (hstr : lda * N ≤ str) (hoff : off < str)
    (hne : b' ≠ b) :
    lastVal (generalBatchWrites M N lda (b' * str) d c0) (off + b * str) = none := by
  refine lastVal_eq_none fun w hw => ?_
  obtain ⟨i, j, hi, hj, h1⟩ := mem_generalBatchWrites hw
  rw [h1]
  intro hc
  have hlt : i + j * lda < str :=
    lt_of_lt_of_le (off_lt_of_lt (by omega) hj) hstr
  exact hne (addr_decomp hlt hoff hc).2

theorem lastVal_generalRow_none {V : Type} {N lda base : Nat} {d : Nat → V}
    {c i' i j : Nat} (hi' : i' < lda) (hi : i < lda) (hne : i' ≠ i) :
    lastVal (generalRowWrites N lda base d i' c) (i + j * lda + base) = none := by
  refine lastVal_eq_none fun w hw => ?_
  obtain ⟨j', hj', h1⟩ := mem_generalRowWrites hw
  rw [h1]
  intro hc
  have hoff : i' + j' * lda = i + j * lda := by omega
  exact hne (addr_decomp hi' hi hoff).1

/-- The general generator stores, at the in-range element `(b, i, j)`, the
draw of index `(b*M + i)*N + j`, i.e. the position in the single seeded
random stream determined by the loop order. -/
theorem createGeneral_at {V : Type} (d : Nat → V) {M N lda str bc b i j : Nat}
    (hM : M ≤ lda) (hstr : lda * N ≤ str) (hb : b < bc) (hi : i < M)
    (hj : j < N) :
    createGeneral M N lda str bc d (i + j * lda + b * str)
      = some (d ((b * M + i) * N + j)) := by
  have hlda : 0 < lda := by omega
  have hofflt : i + j * lda < str :=
    lt_of_lt_of_le (off_lt_of_lt (by omega) hj) hstr
  rw [createGeneral, applyWrites_eq_lastVal, generalWrites]
  rw [lastVal_flatMap_eq (List.mem_range.mpr hb) (List.nodup_range bc)
    (fun b' _ hne => lastVal_generalBatch_none hM hstr hofflt hne)]
  rw [generalBatchWrites]
  rw [lastVal_flatMap_eq (List.mem_range.mpr hi) (List.nodup_range M)
    (fun i' hi' hne =>
      lastVal_generalRow_none (by have := List.mem_range.mp hi'; omega)
        (by omega) hne)]
  rw [generalRowWrites]
  have hinj : ∀ j' ∈ List.range N,
      (fun j2 => i + j2 * lda + b * str) j' = (fun j2 => i + j2 * lda + b * str) j
        → j' = j := by
    intro j' _ hg
    simp only at hg
    have : j' * lda = j * lda := by omega
    exact Nat.eq_of_mul_eq_mul_right hlda this
  have hmap := lastVal_map_addr (fun j2 => i + j2 * lda + b * str)
    (fun j2 => d (b * (M * N) + i * N + j2)) (List.mem_range.mpr hj)
    (List.nodup_range N) hinj
  simp only at hmap
  rw [hmap]
  have harith : b * (M * N) + i * N + j = (b * M + i) * N + j := by ring
  rw [harith]

/-- C4: the general matrix generators are deterministic: the buffer contents
are a function of the dimension arguments and the seeded draw stream alone
(two runs with equal streams agree everywhere), and every in-range element of
the buffer is exactly a fixed-index element of that stream. -/
theorem c4_generator_determinism {V : Type} (M N lda str bc : Nat)
    (d1 d2 : Nat → V) (p b i j : Nat) (hseed : d1 = d2) (hM : M ≤ lda)
    (hstr : lda * N ≤ str) (hb : b < bc) (hi : i < M) (hj : j < N) :
    createGeneral M N lda str bc d1 p = createGeneral M N lda str bc d2 p ∧
    createGeneral M N lda str bc d1 (i + j * lda + b * str)
      = some (d1 ((b * M + i) * N + j)) := by
  exact ⟨by rw [hseed], createGeneral_at d1 hM hstr hb hi hj⟩

theorem c4_generator_determinism_witness :
    (fun k => (k : Int)) = (fun k => (k : Int)) ∧
    (2 : Nat) ≤ 2 ∧ 2 * 2 ≤ 4 ∧ (1 : Nat) < 2 ∧
    createGeneral 2 2 2 4 2 (fun k => (k : Int)) 0
      = createGeneral 2 2 2 4 2 (fun k => (k : Int)) 0 ∧
    createGeneral 2 2 2 4 2 (fun k => (k : Int)) (1 + 1 * 2 + 1 * 4)
      = some ((fun k => (k : Int)) ((1 * 2 + 1) * 2 + 1)) := by
  have h := c4_generator_determinism 2 2 2 4 2 (fun k => (k : Int))
    (fun k => (k : Int)) 0 1 1 1 rfl (by decide) (by decide) (by decide)
    (by decide) (by decide)
  exact ⟨rfl, by decide, by decide, by decide, h.1, h.2⟩

/-! ## Frame lemmas: what the generators never write -/

theorem mem_symWrites {V : Type} {N lda str bc : Nat} {draws : Nat → V}
    {scale : V → V} {w : Nat × V} (hw : w ∈ symWrites N lda str bc draws scale) :
    ∃ b x y, b < bc ∧ x ≤ y ∧ y < N ∧
      (w.1 = x + y * lda + b * str ∨ w.1 = y + x * lda + b * str) := by
  simp only [symWrites, List.mem_flatMap, List.mem_range] at hw
  obtain ⟨b, hb, hmem⟩ := hw
  obtain ⟨x, y, _, hxy, hy, hcase⟩ := mem_symRows hmem
  exact ⟨b, x, y, hb, hxy, by omega, hcase⟩

theorem createGeneral_frame {V : Type} (d : Nat → V) {M N lda str bc p : Nat}
    (hp : p ∉ generalAddrs M N lda str bc) :
    createGeneral M N lda str bc d p = none := by
  rw [createGeneral, applyWrites_eq_lastVal]
  exact lastVal_eq_none fun w hw hc => hp (hc ▸ generalWrites_fst hw)

theorem createSym_frame {V : Type} (d : Nat → V) (s : V → V)
    {N lda str bc p : Nat} (hp : p ∉ symAddrs N lda str bc) :
    createSym N lda str bc d s p = none := by
  rw [createSym, applyWrites_eq_lastVal]
  exact lastVal_eq_none fun w hw hc => hp (hc ▸ symWrites_fst hw)

theorem createGeneral_pad_row {V : Type} (d : Nat → V) {M N lda str bc b i j : Nat}
    (hM : M ≤ lda) (hstr : lda * N ≤ str) (hiM : M ≤ i) (hilda : i < lda)
    (hj : j < N) :
    createGeneral M N lda str bc d (i + j * lda + b * str) = none := by
  rw [createGeneral, applyWrites_eq_lastVal]
  refine lastVal_eq_none fun w hw => ?_
  obtain ⟨b', i', j', _, hi', hj', h1⟩ := mem_generalWrites hw
  rw [h1]
  intro hc
  have hlt1 : i' + j' * lda < str :=
    lt_of_lt_of_le (off_lt_of_lt (by omega) hj') hstr
  have hlt2 : i + j * lda < str :=
    lt_of_lt_of_le (off_lt_of_lt hilda hj) hstr
  have hdec := addr_decomp hlt1 hlt2 hc
  have := (addr_decomp (by omega : i' < lda) hilda hdec.1).1
  omega

theorem createGeneral_pad_tail {V : Type} (d : Nat → V) {M N lda str bc b off : Nat}
    (hM : M ≤ lda) (hstr : lda * N ≤ str) (hoff1 : lda * N ≤ off)
    (hoff2 : off < str) :
    createGeneral M N lda str bc d (b * str + off) = none := by
  rw [createGeneral, applyWrites_eq_lastVal]
  refine lastVal_eq_none fun w hw => ?_
  obtain ⟨b', i', j', _, hi', hj', h1⟩ := mem_generalWrites hw
  rw [h1]
  intro hc
  rw [Nat.add_comm (b * str) off] at hc
  have hlt1 : i' + j' * lda < str :=
    lt_of_lt_of_le (off_lt_of_lt (by omega) hj') hstr
  have hdec := addr_decomp hlt1 hoff2 hc
  have : i' + j' * lda < lda * N := off_lt_of_lt (by omega) hj'
  omega

theorem createSym_pad_row {V : Type} (d : Nat → V) (s : V → V)
    {N lda str bc b i j : Nat} (hN : N ≤ lda) (hstr : lda * N ≤ str)
    (hiN : N ≤ i) (hilda : i < lda) (hj : j < N) :
    createSym N lda str bc d s (i + j * lda + b * str) = none := by
  rw [createSym, applyWrites_eq_lastVal]
  refine lastVal_eq_none fun w hw => ?_
  obtain ⟨b', x, y, _, hxy, hy, hcase⟩ := mem_symWrites hw
  have hlt2 : i + j * lda < str :=
    lt_of_lt_of_le (off_lt_of_lt hilda hj) hstr
  rcases hcase with h1 | h1 <;> rw [h1] <;> intro hc
  · have hlt1 : x + y * lda < str :=
      lt_of_lt_of_le (off_lt_of_lt (by omega) hy) hstr
    have hdec := addr_decomp hlt1 hlt2 hc
    have := (addr_decomp (by omega : x < lda) hilda hdec.1).1
    omega
  · have hlt1 : y + x * lda < str :=
      lt_of_lt_of_le (off_lt_of_lt (by omega) (by omega)) hstr
    have hdec := addr_decomp hlt1 hlt2 hc
    have := (addr_decomp (by omega : y < lda) hilda hdec.1).1
    omega

theorem createSym_pad_tail {V : Type} (d : Nat → V) (s : V → V)
    {N lda str bc b off : Nat} (hN : N ≤ lda) (hstr : lda * N ≤ str)
    (hoff1 : lda * N ≤ off) (hoff2 : off < str) :
    createSym N lda str bc d s (b * str + off) = none := by
  rw [createSym, applyWrites_eq_lastVal]
  refine lastVal_eq_none fun w hw => ?_
  obtain ⟨b', x, y, _, hxy, hy, hcase⟩ := mem_symWrites hw
  rcases hcase with h1 | h1 <;> rw [h1] <;> intro hc <;>
    rw [Nat.add_comm (b * str) off] at hc
  · have hlt1 : x + y * lda < str :=
      lt_of_lt_of_le (off_lt_of_lt (by omega) hy) hstr
    have hdec := addr_decomp hlt1 hoff2 hc
    have : x + y * lda < lda * N := off_lt_of_lt (by omega) hy
    omega
  · have hlt1 : y + x * lda < str :=
      lt_of_lt_of_le (off_lt_of_lt (by omega) (by omega)) hstr
    have hdec := addr_decomp hlt1 hoff2 hc
    have : y + x * lda < lda * N := off_lt_of_lt (by omega) (by omega)
    omega

/-- C10: the generators only ever write elements with row index below `M`
(`N` for the symmetric ones) and column index below `N` of each batch member:
any address outside the written-address set stays `none` (uninitialized), and
in particular the padding rows `M..lda-1` of each column and the tail region
`lda*N..strideA-1` of each batch slot are never written. -/
theorem c10_generator_frame {V : Type} (draws : Nat → V) (scale : V → V)
    (M N lda str bc p q b i j off : Nat)
    (hp : p ∉ generalAddrs M N lda str bc)
    (hq : q ∉ symAddrs N lda str bc)
    (hM : M ≤ lda) (hN : N ≤ lda) (hstr : lda * N ≤ str)
    (hiM : M ≤ i) (hiN : N ≤ i) (hilda : i < lda) (hj : j < N)
    (hoff1 : lda * N ≤ off) (hoff2 : off < str) :
    createGeneral M N lda str bc draws p = none ∧
    createSym N lda str bc draws scale q = none ∧
    createGeneral M N lda str bc draws (i + j * lda + b * str) = none ∧
    createSym N lda str bc draws scale (i + j * lda + b * str) = none ∧
    createGeneral M N lda str bc draws (b * str + off) = none ∧
    createSym N lda str bc draws scale (b * str + off) = none :=
  ⟨createGeneral_frame draws hp, createSym_frame draws scale hq,
   createGeneral_pad_row draws hM hstr hiM hilda hj,
   createSym_pad_row draws scale hN hstr hiN hilda hj,
   createGeneral_pad_tail draws hM hstr hoff1 hoff2,
   createSym_pad_tail draws scale hN hstr hoff1 hoff2⟩

theorem c10_generator_frame_witness :
    (2 : Nat) ∉ generalAddrs 2 2 3 8 2 ∧
    (2 : Nat) ∉ symAddrs 2 3 8 2 ∧
    createGeneral 2 2 3 8 2 (fun k => (k : Int)) 2 = none ∧
    createSym 2 3 8 2 (fun k => (k : Int)) (fun v => v * 10) 2 = none ∧
    createGeneral 2 2 3 8 2 (fun k => (k : Int)) (2 + 1 * 3 + 1 * 8) = none ∧
    createSym 2 3 8 2 (fun k => (k : Int)) (fun v => v * 10) (2 + 1 * 3 + 1 * 8)
      = none ∧
    createGeneral 2 2 3 8 2 (fun k => (k : Int)) (1 * 8 + 6) = none ∧
    createSym 2 3 8 2 (fun k => (k : Int)) (fun v => v * 10) (1 * 8 + 6)
      = none := by
  have h := c10_generator_frame (fun k => (k : Int)) (fun v => v * 10)
    2 2 3 8 2 2 2 1 2 1 6 (by decide) (by decide) (by decide) (by decide)
    (by decide) (by decide) (by decide) (by decide) (by decide) (by decide)
    (by decide)
  exact ⟨by decide, by decide, h.1, h.2.1, h.2.2.1, h.2.2.2.1,
    h.2.2.2.2.1, h.2.2.2.2.2⟩

/-! ## Mirror symmetry of the symmetric generators -/

theorem lastVal_cons_some {V : Type} {w : Nat × V} {ws : List (Nat × V)}
    {p : Nat} {v : V} (h : lastVal ws p = some v) :
    lastVal (w :: ws) p = some v := by
  simp [lastVal, h]

theorem lastVal_append_some {V : Type} {ws₁ ws₂ : List (Nat × V)} {p : Nat}
    {v : V} (h : lastVal ws₂ p = some v) :
    lastVal (ws₁ ++ ws₂) p = some v := by
  rw [lastVal_append, h]

theorem lastVal_append_none {V : Type} {ws₁ ws₂ : List (Nat × V)} {p : Nat}
    (h : lastVal ws₂ p = none) :
    lastVal (ws₁ ++ ws₂) p = lastVal ws₁ p := by
  rw [lastVal_append, h]

theorem lastVal_cons2_none {V : Type} {a1 a2 : Nat} {v1 v2 : V}
    {ws : List (Nat × V)} {p : Nat} (h : lastVal ws p = none) :
    lastVal ((a1, v1) :: (a2, v2) :: ws) p
      = if a2 = p then some v2 else if a1 = p then some v1 else none := by
  by_cases h2 : a2 = p <;> by_cases h1 : a1 = p <;> simp [lastVal, h, h1, h2]

theorem symOffDiagWrites_cons {V : Type} {lda base : Nat} {d : Nat → V}
    {i k j : Nat} {js : List Nat} :
    symOffDiagWrites lda base d i k (j :: js)
      = (i + j * lda + base, d (k + (j - i))) ::
        (j + i * lda + base, d (k + (j - i))) ::
        symOffDiagWrites lda base d i k js := rfl

theorem lastVal_offd_hit {V : Type} (lda base : Nat) (d : Nat → V)
    (i k y : Nat) :
    ∀ {js : List Nat}, y ∈ js →
      (lastVal (symOffDiagWrites lda base d i k js)
        (i + y * lda + base)).isSome = true := by
  intro js
  induction js with
  | nil => intro h; cases h
  | cons j js ih =>
    intro hy
    rw [symOffDiagWrites_cons]
    cases hr : lastVal (symOffDiagWrites lda base d i k js) (i + y * lda + base) with
    | some v => rw [lastVal_cons_some (lastVal_cons_some hr)]; rfl
    | none =>
      rcases List.mem_cons.mp hy with rfl | hyl
      · rw [lastVal_cons2_none hr]
        by_cases h2 : y + i * lda + base = i + y * lda + base
        · rw [if_pos h2]; rfl
        · rw [if_neg h2, if_pos rfl]; rfl
      · have hs := ih hyl
        rw [hr] at hs
        simp at hs

theorem lastVal_offd_mirror {V : Type} (lda base : Nat) (d : Nat → V)
    (i k x y : Nat) (hi : i < lda) (hx : x < lda) (hy : y < lda)
    (hne : x ≠ y) :
    ∀ (js : List Nat), (∀ j ∈ js, j < lda) →
      lastVal (symOffDiagWrites lda base d i k js) (x + y * lda + base)
        = lastVal (symOffDiagWrites lda base d i k js) (y + x * lda + base) := by
  intro js
  induction js with
  | nil => intro _; rfl
  | cons j js ih =>
    intro hall
    have hj : j < lda := hall j (List.mem_cons_self j js)
    have ih2 := ih fun j2 hj2 => hall j2 (List.mem_cons_of_mem j hj2)
    rw [symOffDiagWrites_cons]
    cases hr : lastVal (symOffDiagWrites lda base d i k js) (x + y * lda + base) with
    | some v =>
      have hrq : lastVal (symOffDiagWrites lda base d i k js) (y + x * lda + base)
          = some v := by rw [← ih2, hr]
      rw [lastVal_cons_some (lastVal_cons_some hr),
          lastVal_cons_some (lastVal_cons_some hrq)]
    | none =>
      have hrq : lastVal (symOffDiagWrites lda base d i k js) (y + x * lda + base)
          = none := by rw [← ih2, hr]
      rw [lastVal_cons2_none hr, lastVal_cons2_none hrq]
      have e1 : (j + i * lda + base = x + y * lda + base) ↔ (j = x ∧ i = y) := by
        constructor
        · intro h
          have h2 : j + i * lda = x + y * lda := by omega
          exact addr_decomp hj hx h2
        · rintro ⟨rfl, rfl⟩; rfl
      have e2 : (i + j * lda + base = x + y * lda + base) ↔ (i = x ∧ j = y) := by
        constructor
        · intro h
          have h2 : i + j * lda = x + y * lda := by omega
          exact addr_decomp hi hx h2
        · rintro ⟨rfl, rfl⟩; rfl
      have e3 : (j + i * lda + base = y + x * lda + base) ↔ (i = x ∧ j = y) := by
        constructor
        · intro h
          have h2 : j + i * lda = y + x * lda := by omega
          have := addr_decomp hj hy h2
          exact ⟨this.2, this.1⟩
        · rintro ⟨rfl, rfl⟩; rfl
      have e4 : (i + j * lda + base = y + x * lda + base) ↔ (j = x ∧ i = y) := by
        constructor
        · intro h
          have h2 : i + j * lda = y + x * lda := by omega
          have := addr_decomp hi hy h2
          exact ⟨this.2, this.1⟩
        · rintro ⟨rfl, rfl⟩; rfl
      simp only [e1, e2, e3, e4]
      by_cases hP : j = x ∧ i = y <;> by_cases hQ : i = x ∧ j = y <;>
        simp [hP, hQ]

theorem symRows_pair {V : Type} {lda base : Nat} {d : Nat → V} {s : V → V}
    {x y : Nat} (hxy : x < y) :
    ∀ (rows i k : Nat), i ≤ x → y < i + rows → i + rows ≤ lda →
      (lastVal (symRows lda base d s rows i k) (x + y * lda + base)).isSome
        = true ∧
      lastVal (symRows lda base d s rows i k) (x + y * lda + base)
        = lastVal (symRows lda base d s rows i k) (y + x * lda + base) := by
  intro rows
  induction rows with
  | zero => intro i k h1 h2 h3; omega
  | succ rows ih =>
    intro i k hix hy hrows
    have hxlda : x < lda := by omega
    have hylda : y < lda := by omega
    rw [symRows]
    rcases Nat.lt_or_ge i x with hlt | hge
    · obtain ⟨hsome, heq⟩ := ih (i + 1) (k + (rows + 1))
        (by omega) (by omega) (by omega)
      rcases Option.isSome_iff_exists.mp hsome with ⟨v, hv⟩
      have hq : lastVal (symRows lda base d s rows (i + 1) (k + (rows + 1)))
          (y + x * lda + base) = some v := by rw [← heq, hv]
      rw [lastVal_append_some hv, lastVal_append_some hq]
      exact ⟨rfl, rfl⟩
    · have hix2 : i = x := by omega
      subst hix2
      have hrestp : lastVal (symRows lda base d s rows (i + 1) (k + (rows + 1)))
          (i + y * lda + base) = none := by
        refine lastVal_eq_none fun w hw => ?_
        obtain ⟨x2, y2, hx2, hxy2, hy2, hforms⟩ := mem_symRows hw
        have hx2lda : x2 < lda := by omega
        have hy2lda : y2 < lda := by omega
        rcases hforms with h1 | h1 <;> rw [h1] <;> intro hc
        · have h2 : x2 + y2 * lda = i + y * lda := by omega
          have := addr_decomp hx2lda (by omega : i < lda) h2
          omega
        · have h2 : y2 + x2 * lda = i + y * lda := by omega
          have := addr_decomp hy2lda (by omega : i < lda) h2
          omega
      have hrestq : lastVal (symRows lda base d s rows (i + 1) (k + (rows + 1)))
          (y + i * lda + base) = none := by
        refine lastVal_eq_none fun w hw => ?_
        obtain ⟨x2, y2, hx2, hxy2, hy2, hforms⟩ := mem_symRows hw
        have hx2lda : x2 < lda := by omega
        have hy2lda : y2 < lda := by omega
        rcases hforms with h1 | h1 <;> rw [h1] <;> intro hc
        · have h2 : x2 + y2 * lda = y + i * lda := by omega
          have := addr_decomp hx2lda hylda h2
          omega
        · have h2 : y2 + x2 * lda = y + i * lda := by omega
          have := addr_decomp hy2lda hylda h2
          omega
      have hyjs : y ∈ List.range' (i + 1) rows :=
        List.mem_range'_1.mpr ⟨by omega, by omega⟩
      have hhit := lastVal_offd_hit lda base d i k y hyjs
      rcases Option.isSome_iff_exists.mp hhit with ⟨v, hv⟩
      have hall : ∀ j2 ∈ List.range' (i + 1) rows, j2 < lda := fun j2 hj2 => by
        have := List.mem_range'_1.mp hj2
        omega
      have hmir := lastVal_offd_mirror lda base d i k i y
        (by omega : i < lda) (by omega : i < lda) hylda (by omega : i ≠ y)
        (List.range' (i + 1) rows) hall
      have hvq : lastVal (symOffDiagWrites lda base d i k (List.range' (i + 1) rows))
          (y + i * lda + base) = some v := by
        rw [← hmir]
        exact hv
      rw [lastVal_append_none hrestp, lastVal_append_none hrestq,
          lastVal_cons_some hv, lastVal_cons_some hvq]
      exact ⟨rfl, rfl⟩

theorem lastVal_symRows_batch_none {V : Type} {lda str N : Nat} {d : Nat → V}
    {s : V → V} {b2 b off k0 : Nat} (hN : N ≤ lda) (hstr : lda * N ≤ str)
    (hoff : off < str) (hne : b2 ≠ b) :
    lastVal (symRows lda (b2 * str) d s N 0 k0) (off + b * str) = none := by
  refine lastVal_eq_none fun w hw => ?_
  obtain ⟨x2, y2, _, hxy2, hy2, hforms⟩ := mem_symRows hw
  rcases hforms with h1 | h1 <;> rw [h1] <;> intro hc
  · have hlt : x2 + y2 * lda < str :=
      lt_of_lt_of_le (off_lt_of_lt (by omega) (by omega)) hstr
    exact hne (addr_decomp hlt hoff hc).2
  · have hlt : y2 + x2 * lda < str :=
      lt_of_lt_of_le (off_lt_of_lt (by omega) (by omega)) hstr
    exact hne (addr_decomp hlt hoff hc).2

theorem createSym_pair {V : Type} (d : Nat → V) (s : V → V)
    {N lda str bc b x y : Nat} (hb : b < bc) (hy : y < N) (hxy : x < y)
    (hN : N ≤ lda) (hstr : lda * N ≤ str) :
    (createSym N lda str bc d s (x + y * lda + b * str)).isSome = true ∧
    createSym N lda str bc d s (x + y * lda + b * str)
      = createSym N lda str bc d s (y + x * lda + b * str) := by
  have hofp : x + y * lda < str :=
    lt_of_lt_of_le (off_lt_of_lt (by omega) hy) hstr
  have hofq : y + x * lda < str :=
    lt_of_lt_of_le (off_lt_of_lt (by omega) (by omega)) hstr
  simp only [createSym, applyWrites_eq_lastVal, symWrites]
  rw [lastVal_flatMap_eq (List.mem_range.mpr hb) (List.nodup_range bc)
    (fun b2 _ hne => lastVal_symRows_batch_none hN hstr hofp hne)]
  rw [lastVal_flatMap_eq (List.mem_range.mpr hb) (List.nodup_range bc)
    (fun b2 _ hne => lastVal_symRows_batch_none hN hstr hofq hne)]
  exact symRows_pair hxy N 0 (b * (N * (N + 1) / 2)) (by omega) (by omega)
    (by omega)

/-- C3: the symmetric generators write the same drawn value to the mirrored
positions `A[x + y*lda + b*strideA]` and `A[y + x*lda + b*strideA]` for every
batch member `b` and every off-diagonal pair `x ≠ y`, so after generation the
two buffer cells hold the identical value (and are in fact written). -/
theorem c3_symmetric_mirror {V : Type} (draws : Nat → V) (scale : V → V)
    (N lda str bc b x y : Nat) (hb : b < bc) (hx : x < N) (hy : y < N)
    (hne : x ≠ y) (hN : N ≤ lda) (hstr : lda * N ≤ str) :
    (createSym N lda str bc draws scale (x + y * lda + b * str)).isSome
      = true ∧
    createSym N lda str bc draws scale (x + y * lda + b * str)
      = createSym N lda str bc draws scale (y + x * lda + b * str) := by
  rcases Nat.lt_or_ge x y with h | h
  · exact createSym_pair draws scale hb hy h hN hstr
  · have hlt : y < x := by omega
    obtain ⟨hs, he⟩ := createSym_pair draws scale hb hx hlt hN hstr
    refine ⟨?_, he.symm⟩
    rw [← he]
    exact hs

theorem c3_symmetric_mirror_witness :
    ((1 : Nat) < 2 ∧ (0 : Nat) < 2 ∧ (0 : Nat) ≠ 1 ∧ (2 : Nat) ≤ 2 ∧
      2 * 2 ≤ 4) ∧
    (createSym 2 2 4 2 (fun k => (k : Int)) (fun v => v * 10)
      (0 + 1 * 2 + 1 * 4)).isSome = true ∧
    createSym 2 2 4 2 (fun k => (k : Int)) (fun v => v * 10)
        (0 + 1 * 2 + 1 * 4)
      = createSym 2 2 4 2 (fun k => (k : Int)) (fun v => v * 10)
        (1 + 0 * 2 + 1 * 4) := by
  have h := c3_symmetric_mirror (fun k => (k : Int)) (fun v => v * 10)
    2 2 4 2 1 0 1 (by decide) (by decide) (by decide) (by decide) (by decide)
    (by decide)
  exact ⟨by decide, h.1, h.2⟩

/-- C9: running the symmetric-eigensolver benchmark with size 4 (a 4 x 4
matrix), batch count 1, one timed iteration, zero warm-up time and seed 42
produces a report whose printed matrix size is `4 x 4`, whose printed batch
count is `1`, and which holds exactly one timing sample whose mean is
non-negative (given that the clock measurement is non-negative). -/
theorem c9_ssyev_scenario (wfuel : Nat) (wmeas : Nat → Int) (elapsed : Nat → ℚ)
    (r : SsyevReport) (hpos : 0 ≤ elapsed 0)
    (hrun : runSsyev 4 10 none 1 1 0 wfuel wmeas elapsed = some r) :
    r.matrixSize = "4 x 4" ∧ r.batchCount = "1" ∧ r.timings.length = 1 ∧
    0 ≤ r.avg := by
  rw [runSsyev] at hrun
  cases hw : warmupLoop 0 wmeas wfuel 0 0 with
  | none => rw [hw] at hrun; cases hrun
  | some wc =>
    rw [hw] at hrun
    have hr := Option.some.inj hrun
    subst hr
    refine ⟨?_, ?_, by simp, ?_⟩
    · show toString (4 : Int) ++ " x " ++ toString (4 : Int) = "4 x 4"
      decide
    · show toString (1 : Int) = "1"
      decide
    · show 0 ≤ avg_time ((List.range 1).map elapsed)
      have ht : (List.range 1).map elapsed = [elapsed 0] := rfl
      rw [ht]
      simpa [avg_time] using hpos

theorem c9_ssyev_scenario_witness :
    runSsyev 4 10 none 1 1 0 2 (fun k => (k : Int)) (fun _ => (0 : ℚ))
      = some (⟨"4 x 4", "1", 1, [0], 0, 0⟩ : SsyevReport) ∧
    (0 : ℚ) ≤ 0 ∧
    ((⟨"4 x 4", "1", 1, [0], 0, 0⟩ : SsyevReport).matrixSize = "4 x 4" ∧
      (⟨"4 x 4", "1", 1, [0], 0, 0⟩ : SsyevReport).batchCount = "1" ∧
      (⟨"4 x 4", "1", 1, [0], 0, 0⟩ : SsyevReport).timings.length = 1 ∧
      0 ≤ (⟨"4 x 4", "1", 1, [0], 0, 0⟩ : SsyevReport).avg) := by
  have hstr : toString (4 : Int) ++ " x " ++ toString (4 : Int) = "4 x 4" := by
    decide
  have hbs : toString (1 : Int) = "1" := by decide
  have hw : warmupLoop 0 (fun k => (k : Int)) 2 0 0 = some (1, 1) := by decide
  have hEq : runSsyev 4 10 none 1 1 0 2 (fun k => (k : Int)) (fun _ => (0 : ℚ))
      = some (⟨"4 x 4", "1", 1, [0], 0, 0⟩ : SsyevReport) := by
    rw [runSsyev, hw]
    have ht : List.map (fun _ => (0 : ℚ)) (List.range 1) = [0] := rfl
    simp [ht, hstr, hbs, avg_time, sqDevSum]
  exact ⟨hEq, le_refl 0,
    c9_ssyev_scenario 2 (fun k => (k : Int)) (fun _ => (0 : ℚ)) _
      (le_refl 0) hEq⟩

end RocsolverBench
